import Mathlib

/-!
Verification development for the divisi-partifi_v2 frontend.

The definitions below are shallow embeddings of the JavaScript source:
* `paginateStaves` and its two passes come from
  `src/frontend/src/components/PagePreviewArea.js` (lines 6-85);
* the divider-editor state operations (`deriveStrips`, `fillPageNames`,
  `addDividerAtY`, `exportStripNames`, `dragDivider`, `removeDivider`,
  `insertDividerY`) come from `src/unnamed/part_010` (the MusicPartitioner
  component);
* `detectStavesForPage` models the pure decision logic of the detection
  response handler in `src/unnamed/part_010` (lines 423-501);
* `jsRound`/`scaleRound` model `Math.round(y * ratio)` used by the divider
  rescaling effect in `src/unnamed/part_010` (lines 111-149).

JavaScript numbers are modelled as `Int` where the program only ever holds
integers (stave heights, offsets, spacing) and as `ℚ` where fractional values
arise (y positions after justified-gap division, display coordinates).
-/

namespace Divisi

/-- Layout block of a part's metadata (`partMeta.layout` in the source). -/
structure Layout where
  title_area_px : Int
  available_height_px : Int
  deriving DecidableEq

/-- One stave entry of `partMeta.staves`. -/
structure Stave where
  scaled_height : Int
  markings_overhead_px : Int
  deriving DecidableEq

/-- Part metadata as consumed by `paginateStaves`. -/
structure PartMeta where
  layout : Layout
  staves : List Stave
  deriving DecidableEq

/-- JavaScript `staves[i].scaled_height + staves[i].markings_overhead_px` (the `totalH`
of Pass 1). -/
def totalHOf (s : Stave) : Int :=
  s.scaled_height + s.markings_overhead_px

/-- JavaScript `staves[i]`; inside the pagination loops the index is always
in bounds, the default is never read. -/
def staveAt (staves : List Stave) (i : Nat) : Stave :=
  staves.getD i ⟨0, 0⟩

/-- Pass 1 of `paginateStaves` (PagePreviewArea.js lines 9-39): walk the
staves in order, carrying the current page `cur`, the finished pages `done`
and the cursor `yPos`.  The list argument is `staves.enum`, so each element
is `(i, staves[i])`; `n` is `staves.length`.  `i + 1 < n` renders the
JavaScript `i < staves.length - 1`. -/
def pass1Go (spacing : Int) (offsets : List Int) (breaks : List Nat)
    (avail : Int) (n : Nat) :
    List (Nat × Stave) → List Nat → List (List Nat) → Int → List (List Nat)
  | [], cur, done, _ => done ++ [cur]
  | (i, st) :: rest, cur, done, yPos =>
    let totalH := totalHOf st
    let gap : Int := if cur = [] then 0 else spacing + offsets.getD i 0
    let s1 : List Nat × List (List Nat) × Int :=
      if yPos + gap + totalH > avail ∧ cur ≠ [] then ([], done ++ [cur], 0)
      else (cur, done, yPos)
    let cur1 := s1.1
    let done1 := s1.2.1
    let y1 := s1.2.2
    let y2 := y1 + (if cur1 = [] then 0 else spacing + offsets.getD i 0)
    let cur2 := cur1 ++ [i]
    let y3 := y2 + totalH
    if i ∈ breaks ∧ i + 1 < n then
      pass1Go spacing offsets breaks avail n rest [] (done1 ++ [cur2]) 0
    else
      pass1Go spacing offsets breaks avail n rest cur2 done1 y3

/-- Pass 1 entry point: page assignments (a list of pages, each a list of
stave indices; the trailing page may be empty, exactly as in the source). -/
def pass1 (staves : List Stave) (spacing : Int) (offsets : List Int)
    (breaks : List Nat) (layout : Layout) : List (List Nat) :=
  pass1Go spacing offsets breaks layout.available_height_px staves.length
    staves.enum [] [] layout.title_area_px

/-- The `startY` of Pass 2: the title area on the first page, 0 afterwards. -/
def startYOf (layout : Layout) (p : Nat) : Int :=
  if p = 0 then layout.title_area_px else 0

/-- The `totalStaveH` of Pass 2: the `reduce` summing `scaled_height +
markings_overhead_px` over the page's stave indices. -/
def totalStaveHOf (staves : List Stave) (indices : List Nat) : Int :=
  (indices.map (fun i => totalHOf (staveAt staves i))).sum

/-- The gap count `numGaps = indices.length - 1`. -/
def numGapsOf (indices : List Nat) : Nat :=
  indices.length - 1

/-- The `remainingSpace = available_height_px - startY - totalStaveH`. -/
def remainingOf (staves : List Stave) (layout : Layout) (p : Nat)
    (indices : List Nat) : Int :=
  layout.available_height_px - startYOf layout p - totalStaveHOf staves indices

/-- The flag `hasForcedBreak = indices.some(i => pageBreaksAfter.has(i))`. -/
def hasForcedOf (breaks : List Nat) (indices : List Nat) : Bool :=
  indices.any (fun i => decide (i ∈ breaks))

/-- The `justifiedGap`: `spacingPx` unless the page has a forced break, at least
one gap, and more remaining space than `numGaps * spacingPx`, in which case
the remaining space is divided evenly (floating-point division in the
source, exact division in `ℚ` here). -/
def justifiedGapQ (staves : List Stave) (spacing : Int) (breaks : List Nat)
    (layout : Layout) (p : Nat) (indices : List Nat) : ℚ :=
  if hasForcedOf breaks indices = true ∧ 0 < numGapsOf indices ∧
      (numGapsOf indices : Int) * spacing < remainingOf staves layout p indices
  then (remainingOf staves layout p indices : ℚ) / (numGapsOf indices : ℚ)
  else (spacing : ℚ)

/-- One stave as placed by Pass 2 (`{...staves[i], yPosition, pageIndex,
staveIndex}`). -/
structure PlacedStave where
  staveIndex : Nat
  pageIndex : Nat
  yPosition : ℚ
  scaled_height : Int
  markings_overhead_px : Int
  deriving DecidableEq

/-- One output page of `paginateStaves`. -/
structure Page where
  staves : List PlacedStave
  hasForcedBreak : Bool
  endsWithForcedBreak : Bool
  breakAfterStaveIndex : Nat
  deriving DecidableEq

/-- The Pass 2 placement loop for every stave after the first one on a page:
the gap for stave `i` is added to `y` before placing. -/
def placeRest (staves : List Stave) (p : Nat) (gapOf : Nat → ℚ) :
    List Nat → ℚ → List PlacedStave
  | [], _ => []
  | i :: rest, y =>
    let y' := y + gapOf i
    let st := staveAt staves i
    ⟨i, p, y', st.scaled_height, st.markings_overhead_px⟩ ::
      placeRest staves p gapOf rest (y' + (totalHOf st : ℚ))

/-- The Pass 2 placement loop (`j = 0` places at the start cursor, later
staves go through `placeRest`). -/
def placePage (staves : List Stave) (p : Nat) (gapOf : Nat → ℚ) :
    List Nat → ℚ → List PlacedStave
  | [], _ => []
  | i :: rest, y =>
    let st := staveAt staves i
    ⟨i, p, y, st.scaled_height, st.markings_overhead_px⟩ ::
      placeRest staves p gapOf rest (y + (totalHOf st : ℚ))

/-- Pass 2 for one assembled page `indices` at position `p` of the page
assignments (PagePreviewArea.js lines 43-82). -/
def pass2Page (staves : List Stave) (spacing : Int) (offsets : List Int)
    (breaks : List Nat) (layout : Layout) (p : Nat) (indices : List Nat) :
    Page :=
  let hasForced := hasForcedOf breaks indices
  let gapOf : Nat → ℚ := fun i =>
    if hasForced = true then justifiedGapQ staves spacing breaks layout p indices
    else ((spacing + offsets.getD i 0 : Int) : ℚ)
  let lastIdx := indices.getD (indices.length - 1) 0
  { staves := placePage staves p gapOf indices ((startYOf layout p : Int) : ℚ)
    hasForcedBreak := hasForced
    endsWithForcedBreak := decide (lastIdx ∈ breaks)
    breakAfterStaveIndex := lastIdx }

/-- The function `paginateStaves` (PagePreviewArea.js lines 6-85): Pass 1 assigns staves
to pages, Pass 2 positions them; empty assignments are skipped (`continue`). -/
def paginateStaves (meta : PartMeta) (spacing : Int) (offsets : List Int)
    (breaks : List Nat) : List Page :=
  let assignments := pass1 meta.staves spacing offsets breaks meta.layout
  assignments.enum.filterMap (fun pi =>
    if pi.2 = [] then none
    else some (pass2Page meta.staves spacing offsets breaks meta.layout pi.1 pi.2))

/-- Sum of `scaled_height + markings_overhead_px` over a whole part (the
quantity the spec's page-count bound is stated in). -/
def sumTotalH (staves : List Stave) : Int :=
  (staves.map totalHOf).sum

/-- The 10-stave part of the spec's layout scenarios: every stave has
`scaled_height` 400 and no markings overhead; A4 at 300 DPI gives
`available_height_px` 3300 and no title area. -/
def tenStaveMeta : PartMeta :=
  ⟨⟨0, 3300⟩, List.replicate 10 ⟨400, 0⟩⟩

/-! ### Divider editor state (src/unnamed/part_010) -/

/-- A strip between two consecutive dividers (`getStrips`/`deriveStrips`
push `{start, end, height, isSystemStart}`; the JavaScript field `end` is
`stop` here because `end` is a Lean keyword). -/
structure Strip where
  start : ℚ
  stop : ℚ
  height : ℚ
  isSystemStart : Bool
  deriving DecidableEq

/-- The function `deriveStrips(dividers, systemFlags)` (part_010 lines 196-209), the same
logic as `getStrips` on the current page: walk consecutive divider pairs,
skip the pair when the flag at `j+1` is truthy, otherwise emit a strip whose
`isSystemStart` is the flag at `j`.  Out-of-range flag reads are `undefined`
in JavaScript, hence falsy: `getD _ false`. -/
def deriveStrips (dividers : List ℚ) (systemFlags : List Bool) : List Strip :=
  if dividers.length < 2 then []
  else
    (List.range (dividers.length - 1)).foldl
      (fun acc j =>
        if systemFlags.getD (j + 1) false then acc
        else acc ++ [⟨dividers.getD j 0, dividers.getD (j + 1) 0,
          dividers.getD (j + 1) 0 - dividers.getD j 0,
          systemFlags.getD j false⟩])
      []

/-- Write `result[i] = v` on a JavaScript array: in-range writes update the
slot, an out-of-range write extends the array (the skipped slots read back
as empty; in `fillPageNames` the index advances by one so only the
append-at-the-end case ever occurs).  Padding to length `i + 1` and then
setting realises exactly that. -/
def setAt (l : List String) (i : Nat) (v : String) : List String :=
  (l ++ List.replicate (i + 1 - l.length) "").set i v

/-- The loop body of `fillPageNames` (part_010 lines 214-235): walk the
strips carrying the position `i` and the sequence cursor `seqIdx`; a system
start resets the cursor; empty slots are filled from the known sequence
(cycling), non-empty slots re-sync the cursor via `indexOf`. -/
def fillGo (seq : List String) : List Strip → Nat → Nat → List String → List String
  | [], _, _, result => result
  | s :: rest, i, seqIdx, result =>
    let seqIdx1 := if s.isSystemStart then 0 else seqIdx
    let cur := result.getD i ""
    if cur = "" then
      fillGo seq rest (i + 1) (seqIdx1 + 1)
        (setAt result i (seq.getD (seqIdx1 % seq.length) ""))
    else
      let pos := seq.indexOf cur
      if pos < seq.length then fillGo seq rest (i + 1) (pos + 1) result
      else fillGo seq rest (i + 1) (seqIdx1 + 1) result

/-- The function `fillPageNames(names, pageStrips, knownSeq)` (part_010 lines 214-235). -/
def fillPageNames (names : List String) (pageStrips : List Strip)
    (knownSeq : List String) : List String :=
  if knownSeq.length = 0 ∨ pageStrips.length = 0 then names
  else fillGo knownSeq pageStrips 0 0 names

/-- The `while (insertIdx < divs.length && divs[insertIdx] < y) insertIdx++`
loop of `addDividerAtY`. -/
def insertIdx (divs : List ℚ) (y : ℚ) : Nat :=
  (divs.takeWhile (fun d => decide (d < y))).length

/-- JavaScript `arr.splice(idx, 0, a)` as a pure operation. -/
def splice {α : Type} (l : List α) (idx : Nat) (a : α) : List α :=
  l.take idx ++ a :: l.drop idx

/-- The divider insertion performed by `addDividerAtY` on the divider array
itself (part_010 lines 515-529, the `setDividersByPage` updater). -/
def insertDividerY (divs : List ℚ) (y : ℚ) : List ℚ :=
  splice divs (insertIdx divs y) y

/-- Per-page divider state touched by `addDividerAtY`: the divider array and
the parallel system-flag array. -/
structure PageAnnots where
  divs : List ℚ
  flags : List Bool
  deriving DecidableEq

/-- The handler `addDividerAtY(y, isSystem)` (part_010 lines 511-582) restricted to the
divider and flag arrays.  The source enqueues THREE React state updates that
touch these arrays: the `setDividersByPage` updater splices `y` into the
dividers and — nested inside it (lines 523-527) — splices `isSystem` into the
flags; a second, top-level `setSystemDividersByPage` updater (lines 531-541)
splices `isSystem` again at the same index (computed from the same
pre-insertion divider array).  All enqueued updaters run, so one call inserts
one divider and two copies of the flag. -/
def addDividerAtY (st : PageAnnots) (y : ℚ) (isSystem : Bool) : PageAnnots :=
  let idx := insertIdx st.divs y
  { divs := splice st.divs idx y
    flags := splice (splice st.flags idx isSystem) idx isSystem }

/-- The `stripNames` emission loop of `handleExport` (part_010 lines
806-815): one entry per consecutive divider pair; dead strips get `""`, live
strips consume the filled names in order.  Parameters: `k` strips left to
emit, `j` the current divider index, `realIdx` the live-strip cursor. -/
def exportNamesGo (flags : List Bool) (names : List String) :
    Nat → Nat → Nat → List String
  | 0, _, _ => []
  | k + 1, j, realIdx =>
    if flags.getD (j + 1) false then
      "" :: exportNamesGo flags names k (j + 1) realIdx
    else
      names.getD realIdx "" :: exportNamesGo flags names k (j + 1) (realIdx + 1)

/-- The `strip_names` array `handleExport` puts in the partition payload for
one page. -/
def exportStripNames (divs : List ℚ) (flags : List Bool)
    (names : List String) : List String :=
  exportNamesGo flags names (divs.length - 1) 0 0

/-- The handler `removeDivider(index)` on the divider array (part_010 lines 689-690):
`prev.filter((_, i) => i !== index)`, i.e. deletion at an index. -/
def removeDivider (divs : List ℚ) (idx : Nat) : List ℚ :=
  divs.eraseIdx idx

/-- The clamp bound `minY` of the drag handler (part_010 line 748). -/
def dragMin (divs : List ℚ) (idx : Nat) : ℚ :=
  if idx = 0 then 12 else divs.getD (idx - 1) 0 + 12

/-- The clamp bound `maxY` of the drag handler (part_010 line 749). -/
def dragMax (divs : List ℚ) (pageHeight : ℚ) (idx : Nat) : ℚ :=
  if idx = divs.length - 1 then pageHeight - 12 else divs.getD (idx + 1) 0 - 12

/-- The constrained drag update (part_010 lines 740-758): clamp the new
mouse-derived Y into `[minY, maxY]` and write it at the dragged index. -/
def dragDivider (divs : List ℚ) (pageHeight : ℚ) (idx : Nat) (newY : ℚ) :
    List ℚ :=
  divs.set idx (max (dragMin divs idx) (min (dragMax divs pageHeight idx) newY))

/-! ### Detection response handling (src/unnamed/part_010 lines 423-501) -/

/-- JavaScript `Math.round`: round half away from zero for positive
arguments; all arguments the modelled code rounds are non-negative, where
`Math.round x = ⌊x + 1/2⌋`. -/
def jsRound (q : ℚ) : ℤ :=
  ⌊q + 1 / 2⌋

/-- The detection response body `{dividers, system_flags, confidence}`. -/
structure DetectResponse where
  confidence : ℚ
  dividers : List ℚ
  system_flags : List Bool
  deriving DecidableEq

/-- What `detectStavesForPage` does to the page: which arrays it applies (if
any) and which warning it records (if any). -/
structure DetectResult where
  appliedDividers : Option (List ℚ)
  appliedFlags : Option (List Bool)
  warning : Option String
  deriving DecidableEq

/-- Warning recorded when detection is treated as useless (part_010 line 451). -/
def noDetectWarning : String :=
  "Auto-detection could not find staves on this page."

/-- Warning recorded for a low-confidence detection (part_010 line 460). -/
def lowConfWarning (c : ℚ) : String :=
  "Low-confidence detection (" ++ toString (jsRound (c * 100)) ++ "%) — please review."

/-- The decision logic of `detectStavesForPage` on a successfully parsed
response (part_010 lines 446-491), for a page that currently has no
dividers and with the display width unchanged while the request was in
flight (`ratio === 1`, so `data.dividers` is applied verbatim). -/
def detectStavesForPage (r : DetectResponse) : DetectResult :=
  if r.confidence < 3 / 10 ∨ r.dividers.length < 2 then
    ⟨none, none, some noDetectWarning⟩
  else if r.confidence < 7 / 10 then
    ⟨some r.dividers, some r.system_flags, some (lowConfWarning r.confidence)⟩
  else
    ⟨some r.dividers, some r.system_flags, none⟩

/-! ### Display/backend coordinate scaling (src/unnamed/part_010 lines 111-149) -/

/-- The operation `Math.round(y * (num / den))`: scale an integer coordinate by the ratio
`num / den`, rounding to an integer — the operation of the divider rescale
effect. -/
def scaleRound (y num den : ℤ) : ℤ :=
  jsRound ((y : ℚ) * ((num : ℚ) / (den : ℚ)))

/-- Scale backend→display by `D/W`, then display→backend by `W/D`, rounding
both times. -/
def roundTrip (y D W : ℤ) : ℤ :=
  scaleRound (scaleRound y D W) W D

/-! ### Helper lemmas -/

theorem pass1Go_join (sp : Int) (off : List Int) (bk : List Nat) (av : Int)
    (n : Nat) :
    ∀ (l : List (Nat × Stave)) (cur : List Nat) (done : List (List Nat))
      (y : Int),
      (pass1Go sp off bk av n l cur done y).flatten =
        done.flatten ++ cur ++ l.map Prod.fst := by
  intro l
  induction l with
  | nil => intro cur done y; simp [pass1Go]
  | cons a rest ih =>
    intro cur done y
    obtain ⟨i, st⟩ := a
    simp only [pass1Go]
    split_ifs with h1 h2 h3 <;>
      simp [ih, List.flatten_append, List.append_assoc]

theorem pass1_join (staves : List Stave) (sp : Int) (off : List Int)
    (bk : List Nat) (layout : Layout) :
    (pass1 staves sp off bk layout).flatten = List.range staves.length := by
  unfold pass1
  rw [pass1Go_join]
  simp [List.enum_map_fst]

theorem placeRest_map_staveIndex (staves : List Stave) (p : Nat)
    (gapOf : Nat → ℚ) :
    ∀ (l : List Nat) (y : ℚ),
      (placeRest staves p gapOf l y).map (·.staveIndex) = l := by
  intro l
  induction l with
  | nil => intro y; simp [placeRest]
  | cons i rest ih => intro y; simp [placeRest, ih]

theorem placePage_map_staveIndex (staves : List Stave) (p : Nat)
    (gapOf : Nat → ℚ) (l : List Nat) (y : ℚ) :
    (placePage staves p gapOf l y).map (·.staveIndex) = l := by
  cases l with
  | nil => simp [placePage]
  | cons i rest => simp [placePage, placeRest_map_staveIndex]

theorem pass2Page_map_staveIndex (staves : List Stave) (sp : Int)
    (off : List Int) (bk : List Nat) (layout : Layout) (p : Nat)
    (indices : List Nat) :
    (pass2Page staves sp off bk layout p indices).staves.map (·.staveIndex) =
      indices := by
  simp [pass2Page, placePage_map_staveIndex]

theorem filterMap_pass2_map (meta : PartMeta) (sp : Int) (off : List Int)
    (bk : List Nat) :
    ∀ (l : List (List Nat)) (k : Nat),
      ((List.enumFrom k l).filterMap (fun pi =>
          if pi.2 = [] then none
          else some (pass2Page meta.staves sp off bk meta.layout pi.1 pi.2))).map
          (fun pg => pg.staves.map (·.staveIndex)) =
        l.filter (fun x => decide (x ≠ [])) := by
  intro l
  induction l with
  | nil => intro k; simp
  | cons a rest ih =>
    intro k
    by_cases ha : a = [] <;>
      simp [List.enumFrom_cons, List.filterMap_cons, ha, List.filter_cons,
        pass2Page_map_staveIndex, ih]

theorem paginate_map_indices (meta : PartMeta) (sp : Int) (off : List Int)
    (bk : List Nat) :
    (paginateStaves meta sp off bk).map (fun pg => pg.staves.map (·.staveIndex)) =
      (pass1 meta.staves sp off bk meta.layout).filter
        (fun x => decide (x ≠ [])) := by
  unfold paginateStaves
  simp only [List.enum]
  exact filterMap_pass2_map meta sp off bk _ 0

theorem flatten_filter_ne_nil' (l : List (List Nat)) :
    (l.filter (fun x => decide (x ≠ []))).flatten = l.flatten := by
  induction l with
  | nil => rfl
  | cons a rest ih =>
    rw [List.filter_cons]
    by_cases ha : a = []
    · have hd : (decide (a ≠ [])) = false := by simp [ha]
      rw [hd, if_neg (by simp), ih, List.flatten_cons, ha]
      rfl
    · have hd : (decide (a ≠ [])) = true := by simp [ha]
      rw [hd, if_pos rfl, List.flatten_cons, List.flatten_cons, ih]

theorem filter_ne_nil_length_le_flatten (l : List (List Nat)) :
    (l.filter (fun x => decide (x ≠ []))).length ≤ l.flatten.length := by
  induction l with
  | nil => simp
  | cons a rest ih =>
    rw [List.filter_cons]
    by_cases ha : a = []
    · have hd : (decide (a ≠ [])) = false := by simp [ha]
      rw [hd, if_neg (by simp), List.flatten_cons]
      exact ih.trans (by simp)
    · have h1 : 0 < a.length := List.length_pos.mpr ha
      have hd : (decide (a ≠ [])) = true := by simp [ha]
      rw [hd, if_pos rfl, List.length_cons, List.flatten_cons,
        List.length_append]
      omega

theorem foldl_skip_push {β : Type} (c : Nat → Bool) (g : Nat → β) :
    ∀ (r : List Nat) (acc : List β),
      r.foldl (fun acc j => if c j then acc else acc ++ [g j]) acc =
        acc ++ r.filterMap (fun j => if c j then none else some (g j)) := by
  intro r
  induction r with
  | nil => intro acc; simp
  | cons j rest ih =>
    intro acc
    by_cases h : c j = true <;>
      simp [List.foldl_cons, List.filterMap_cons, h, ih]

/-! ### Claim theorems -/

/-- Claim C1 (counterexample): on the 10-stave Part with `scaled_height` 400,
spacing 480, zero offsets, no forced breaks, `available_height_px` 3300 and
`title_area_px` 0, `paginateStaves` does NOT produce 2 pages with a 7/3
split; it produces 3 pages holding staves 0-3, 4-7 and 8-9 (spacing is an
inter-stave gap, so a page fits 4 staves: 4·400 + 3·480 = 3040 ≤ 3300 but
5 staves would need 4720). -/
theorem paginate_ten_staves_cex :
    (paginateStaves tenStaveMeta 480 (List.replicate 10 0) []).map
        (fun pg => pg.staves.map (·.staveIndex)) =
      [[0, 1, 2, 3], [4, 5, 6, 7], [8, 9]] ∧
    ¬((paginateStaves tenStaveMeta 480 (List.replicate 10 0) []).length = 2) := by
  exact ⟨by decide, by decide⟩

/-- Claim C1 (amended): on that Part, `paginateStaves` produces exactly 3
output pages, with staves 0-3 on page 1, staves 4-7 on page 2 and staves 8-9
on page 3. -/
theorem paginate_ten_staves_amended :
    (paginateStaves tenStaveMeta 480 (List.replicate 10 0) []).map
        (fun pg => pg.staves.map (·.staveIndex)) =
      [[0, 1, 2, 3], [4, 5, 6, 7], [8, 9]] := by
  decide

/-- Claim C2: for every divider list and parallel system-flag list, the strip
between divider `j` and divider `j+1` is excluded exactly when the flag at
`j+1` is true, every emitted live strip carries `isSystemStart` equal to the
flag at `j`, and fewer than two dividers yield no strips. -/
theorem deriveStrips_spec (dividers : List ℚ) (systemFlags : List Bool) :
    (dividers.length < 2 → deriveStrips dividers systemFlags = []) ∧
    deriveStrips dividers systemFlags =
      (List.range (dividers.length - 1)).filterMap (fun j =>
        if systemFlags.getD (j + 1) false then none
        else some ⟨dividers.getD j 0, dividers.getD (j + 1) 0,
          dividers.getD (j + 1) 0 - dividers.getD j 0,
          systemFlags.getD j false⟩) := by
  constructor
  · intro h
    simp [deriveStrips, h]
  · by_cases h : dividers.length < 2
    · have h0 : dividers.length - 1 = 0 := by omega
      simp [deriveStrips, h, h0]
    · rw [deriveStrips, if_neg h, foldl_skip_push]
      simp

/-- Claim C2 witness: a single divider yields no strips. -/
theorem deriveStrips_spec_witness : deriveStrips [(5 : ℚ)] [] = [] :=
  (deriveStrips_spec [(5 : ℚ)] []).1 (by decide)

/-- Claim C5 (counterexample): for the 10-stave Part,
`ceil(sum total_h / available_height_px) = ceil(4000/3300) = 2`, yet
`paginateStaves` emits 3 pages — the inter-stave gaps consume page space the
bound ignores. -/
theorem page_count_bound_cex :
    ⌈(sumTotalH tenStaveMeta.staves : ℚ) /
        (tenStaveMeta.layout.available_height_px : ℚ)⌉ = 2 ∧
    ¬((paginateStaves tenStaveMeta 480 (List.replicate 10 0) []).length ≤ 2) := by
  constructor
  · have h1 : sumTotalH tenStaveMeta.staves = 4000 := by decide
    have h2 : tenStaveMeta.layout.available_height_px = 3300 := by decide
    rw [h1, h2]
    rw [Int.ceil_eq_iff]
    constructor <;> norm_num
  · decide

/-- Claim C5 (amended): for every Part and every choice of spacing, offsets
and forced page breaks, the number of output pages is at most the number of
staves (every emitted page holds at least one stave, and each stave lands on
exactly one page).  The spec's `ceil(sum total_h / available_height_px)`
bound does not hold. -/
theorem page_count_bound_amended (meta : PartMeta) (spacing : Int)
    (offsets : List Int) (breaks : List Nat) :
    (paginateStaves meta spacing offsets breaks).length ≤
      meta.staves.length := by
  have h := congrArg List.length (paginate_map_indices meta spacing offsets breaks)
  rw [List.length_map] at h
  rw [h]
  have h2 := filter_ne_nil_length_le_flatten
    (pass1 meta.staves spacing offsets breaks meta.layout)
  rw [pass1_join] at h2
  simpa using h2

/-- Claim C9: `paginateStaves` is total by construction, and for every Part
metadata, spacing, offsets and forced-break set, the stave indices of the
emitted pages, concatenated in page order, are exactly `0, 1, …, n-1` (so
each stave is on exactly one page, in increasing order within and across
pages, and oversized staves are still placed), and no emitted page is empty
(in particular a forced break after the last stave adds no trailing page). -/
theorem paginate_partition_invariants (meta : PartMeta) (spacing : Int)
    (offsets : List Int) (breaks : List Nat) :
    ((paginateStaves meta spacing offsets breaks).map
        (fun pg => pg.staves.map (·.staveIndex))).flatten =
      List.range meta.staves.length ∧
    ∀ pg ∈ paginateStaves meta spacing offsets breaks, pg.staves ≠ [] := by
  constructor
  · rw [paginate_map_indices, flatten_filter_ne_nil', pass1_join]
  · intro pg hpg
    unfold paginateStaves at hpg
    simp only [List.mem_filterMap] at hpg
    obtain ⟨pi, hmem, heq⟩ := hpg
    by_cases hnil : pi.2 = []
    · rw [if_pos hnil] at heq
      exact absurd heq (by simp)
    · rw [if_neg hnil] at heq
      have hpg2 := Option.some.inj heq
      intro hs
      apply hnil
      have hmapeq := pass2Page_map_staveIndex meta.staves spacing offsets
        breaks meta.layout pi.1 pi.2
      rw [hpg2, hs] at hmapeq
      simpa using hmapeq.symm

/-- Claim C9 witness: a one-stave Part yields one page holding stave 0, and
that page is non-empty. -/
theorem paginate_partition_invariants_witness :
    ((paginateStaves ⟨⟨0, 1000⟩, [⟨100, 0⟩]⟩ 0 [] []).map
        (fun pg => pg.staves.map (·.staveIndex))).flatten = List.range 1 ∧
    ((paginateStaves ⟨⟨0, 1000⟩, [⟨100, 0⟩]⟩ 0 [] []).getD 0
        ⟨[], false, false, 0⟩).staves ≠ [] := by
  have h := paginate_partition_invariants ⟨⟨0, 1000⟩, [⟨100, 0⟩]⟩ 0 [] []
  refine ⟨h.1, ?_⟩
  have hlen : (paginateStaves ⟨⟨0, 1000⟩, [⟨100, 0⟩]⟩ 0 [] []).length = 1 := by
    decide
  have h0 : 0 < (paginateStaves ⟨⟨0, 1000⟩, [⟨100, 0⟩]⟩ 0 [] []).length := by
    omega
  rw [List.getD_eq_get _ _ h0]
  exact h.2 _ (List.get_mem _ _ _)

/-- Claim C4 (counterexample): a detection response with confidence 0.9 but
fewer than two dividers is rejected with the no-detection warning — it is
not applied warning-free as the claim's `confidence ≥ 0.7` branch demands. -/
theorem detect_thresholds_cex :
    detectStavesForPage ⟨9 / 10, [], []⟩ = ⟨none, none, some noDetectWarning⟩ ∧
    ¬(detectStavesForPage ⟨9 / 10, [], []⟩ = ⟨some [], some [], none⟩) := by
  have h1 : detectStavesForPage ⟨9 / 10, [], []⟩ =
      ⟨none, none, some noDetectWarning⟩ := by
    norm_num [detectStavesForPage]
  exact ⟨h1, by rw [h1]; simp⟩

/-- Claim C4 (amended): the handler rejects (applies nothing and records the
no-detection warning) exactly when confidence < 0.3 OR the response has
fewer than two dividers; with at least two dividers, confidence in
[0.3, 0.7) applies the dividers and flags together with the low-confidence
review warning, and confidence ≥ 0.7 applies them with no warning. -/
theorem detect_thresholds_amended (r : DetectResponse) :
    (r.confidence < 3 / 10 ∨ r.dividers.length < 2 →
      detectStavesForPage r = ⟨none, none, some noDetectWarning⟩) ∧
    (3 / 10 ≤ r.confidence → 2 ≤ r.dividers.length → r.confidence < 7 / 10 →
      detectStavesForPage r =
        ⟨some r.dividers, some r.system_flags, some (lowConfWarning r.confidence)⟩) ∧
    (3 / 10 ≤ r.confidence → 2 ≤ r.dividers.length → 7 / 10 ≤ r.confidence →
      detectStavesForPage r = ⟨some r.dividers, some r.system_flags, none⟩) := by
  refine ⟨fun h => ?_, fun h1 h2 h3 => ?_, fun h1 h2 h3 => ?_⟩
  · rw [detectStavesForPage, if_pos h]
  · rw [detectStavesForPage,
      if_neg (not_or.mpr ⟨not_lt.mpr h1, not_lt.mpr h2⟩), if_pos h3]
  · rw [detectStavesForPage,
      if_neg (not_or.mpr ⟨not_lt.mpr h1, not_lt.mpr h2⟩),
      if_neg (not_lt.mpr h3)]

/-- Claim C4 witness: a confidence-0.5 response with two dividers is applied
together with the review warning. -/
theorem detect_thresholds_witness :
    detectStavesForPage ⟨1 / 2, [10, 20], [false, false]⟩ =
      ⟨some [10, 20], some [false, false], some (lowConfWarning (1 / 2))⟩ :=
  (detect_thresholds_amended ⟨1 / 2, [10, 20], [false, false]⟩).2.1
    (by norm_num) (by norm_num) (by norm_num)

theorem getD_append_replicate (l : List String) (k j : Nat) :
    (l ++ List.replicate k ("" : String)).getD j "" = l.getD j "" := by
  by_cases hj : j < l.length
  · rw [List.getD_append _ _ _ _ hj]
  · push_neg at hj
    rw [List.getD_eq_default _ _ hj, List.getD_eq_getElem?_getD,
      List.getElem?_append_right hj, List.getElem?_replicate]
    split <;> rfl

theorem setAt_getD_ne (l : List String) (i j : Nat) (v : String)
    (h : j ≠ i) : (setAt l i v).getD j "" = l.getD j "" := by
  unfold setAt
  rw [List.getD_eq_getElem?_getD, List.getElem?_set_ne (Ne.symm h),
    ← List.getD_eq_getElem?_getD, getD_append_replicate]

theorem fillGo_frame (seq : List String) :
    ∀ (strips : List Strip) (i seqIdx : Nat) (result : List String) (j : Nat),
      result.getD j "" ≠ "" →
      (fillGo seq strips i seqIdx result).getD j "" = result.getD j "" := by
  intro strips
  induction strips with
  | nil => intro i k result j h; rfl
  | cons s rest ih =>
    intro i k result j h
    simp only [fillGo]
    by_cases hcur : result.getD i "" = ""
    · rw [if_pos hcur]
      have hji : j ≠ i := fun he => h (he ▸ hcur)
      rw [ih _ _ _ j (by rw [setAt_getD_ne _ _ _ _ hji]; exact h),
        setAt_getD_ne _ _ _ _ hji]
    · rw [if_neg hcur]
      split_ifs <;> exact ih _ _ _ j h

/-- Claim C10: auto-fill never overwrites a user-typed name — for every
names array, strip list and non-empty known sequence, `fillPageNames` agrees
with the input at every index whose input entry is non-empty. -/
theorem fillPageNames_frame (names : List String) (pageStrips : List Strip)
    (knownSeq : List String) (_hseq : knownSeq ≠ []) (j : Nat)
    (h : names.getD j "" ≠ "") :
    (fillPageNames names pageStrips knownSeq).getD j "" = names.getD j "" := by
  unfold fillPageNames
  split_ifs with hc
  · rfl
  · exact fillGo_frame knownSeq pageStrips 0 0 names j h

/-- Claim C10 witness: on a page with a typed first name and an empty second
name, auto-fill keeps the typed name. -/
theorem fillPageNames_frame_witness :
    (fillPageNames ["Vln", ""] [⟨0, 0, 0, false⟩, ⟨0, 0, 0, false⟩]
        ["Vln", "Vc"]).getD 0 "" = "Vln" :=
  (fillPageNames_frame ["Vln", ""] [⟨0, 0, 0, false⟩, ⟨0, 0, 0, false⟩]
      ["Vln", "Vc"] (by decide) 0 (by decide)).trans (by decide)

theorem placeRest_cons_head (staves : List Stave) (p : Nat) (gapOf : Nat → ℚ) :
    ∀ (l : List Nat) (y : ℚ) (b : PlacedStave) (post : List PlacedStave),
      placeRest staves p gapOf l y = b :: post →
      b.yPosition = y + gapOf b.staveIndex := by
  intro l y b post heq
  cases l with
  | nil => exact absurd heq (by simp [placeRest])
  | cons i rest =>
    simp only [placeRest] at heq
    obtain ⟨hb, -⟩ := List.cons_eq_cons.mp heq
    rw [← hb]

theorem placeRest_adjacent (staves : List Stave) (p : Nat) (gapOf : Nat → ℚ) :
    ∀ (l : List Nat) (y : ℚ) (pre : List PlacedStave) (a b : PlacedStave)
      (post : List PlacedStave),
      placeRest staves p gapOf l y = pre ++ a :: b :: post →
      b.yPosition = a.yPosition +
        ((a.scaled_height + a.markings_overhead_px : Int) : ℚ) +
        gapOf b.staveIndex := by
  intro l
  induction l with
  | nil =>
    intro y pre a b post heq
    rw [placeRest] at heq
    exact absurd heq.symm (List.append_ne_nil_of_right_ne_nil _ (by simp))
  | cons i rest ih =>
    intro y pre a b post heq
    simp only [placeRest] at heq
    cases pre with
    | nil =>
      simp only [List.nil_append] at heq
      obtain ⟨ha, htail⟩ := List.cons_eq_cons.mp heq
      have hb := placeRest_cons_head staves p gapOf rest _ b post htail
      rw [hb, ← ha]
      simp only [totalHOf]
    | cons c pre' =>
      simp only [List.cons_append] at heq
      obtain ⟨-, htail⟩ := List.cons_eq_cons.mp heq
      exact ih _ pre' a b post htail

theorem placePage_adjacent (staves : List Stave) (p : Nat) (gapOf : Nat → ℚ) :
    ∀ (l : List Nat) (y : ℚ) (pre : List PlacedStave) (a b : PlacedStave)
      (post : List PlacedStave),
      placePage staves p gapOf l y = pre ++ a :: b :: post →
      b.yPosition = a.yPosition +
        ((a.scaled_height + a.markings_overhead_px : Int) : ℚ) +
        gapOf b.staveIndex := by
  intro l y pre a b post heq
  cases l with
  | nil =>
    rw [placePage] at heq
    exact absurd heq.symm (List.append_ne_nil_of_right_ne_nil _ (by simp))
  | cons i rest =>
    simp only [placePage] at heq
    cases pre with
    | nil =>
      simp only [List.nil_append] at heq
      obtain ⟨ha, htail⟩ := List.cons_eq_cons.mp heq
      have hb := placeRest_cons_head staves p gapOf rest _ b post htail
      rw [hb, ← ha]
      simp only [totalHOf]
    | cons c pre' =>
      simp only [List.cons_append] at heq
      obtain ⟨-, htail⟩ := List.cons_eq_cons.mp heq
      exact placeRest_adjacent staves p gapOf rest _ pre' a b post htail

/-- Claim C3 (counterexample): Pass 1 on three 400-tall staves with spacing
480, offsets `[0, -400, 0]`, forced break after stave 1 and a 1200px page
puts staves 0-1 on page 1 with a forced break, but Pass 2 places stave 1 at
y = 880 (gap `spacingPx` = 480), NOT at 800 as an even distribution of the
400px remaining space into the single gap would demand: the code justifies
only when `remainingSpace > numGaps * spacingPx`. -/
theorem justify_forced_break_cex :
    pass1 [⟨400, 0⟩, ⟨400, 0⟩, ⟨400, 0⟩] 480 [0, -400, 0] [1] ⟨0, 1200⟩ =
      [[0, 1], [2]] ∧
    hasForcedOf [1] [0, 1] = true ∧
    (pass2Page [⟨400, 0⟩, ⟨400, 0⟩, ⟨400, 0⟩] 480 [0, -400, 0] [1] ⟨0, 1200⟩ 0
        [0, 1]).staves.map (·.yPosition) = [0, 880] ∧
    ¬((880 : ℚ) = 0 + ((400 + 0 : Int) : ℚ) +
        (remainingOf [⟨400, 0⟩, ⟨400, 0⟩, ⟨400, 0⟩] ⟨0, 1200⟩ 0 [0, 1] : ℚ) /
          (numGapsOf [0, 1] : ℚ)) := by
  refine ⟨by decide, by decide, ?_, ?_⟩
  · norm_num [pass2Page, placePage, placeRest, justifiedGapQ, hasForcedOf,
      numGapsOf, remainingOf, startYOf, totalStaveHOf, staveAt, totalHOf]
  · norm_num [remainingOf, numGapsOf, startYOf, totalStaveHOf, staveAt,
      totalHOf]

/-- Claim C3 (amended): on the 10-stave Part with `page_breaks_after = [2]`,
page 1 holds staves 0-2, is flagged as containing a forced break and is
justified with gap 1050 = 2100/2, and page 2 begins with stave 3.  In
general, on every page assembled by Pass 2 that contains a forced break,
ALL inter-stave gaps equal `justifiedGap` (per-stave offsets are ignored),
and `justifiedGap` equals the remaining space divided evenly by the number
of gaps whenever that remaining space exceeds `numGaps * spacingPx`
(otherwise it stays `spacingPx`); pages without a forced break keep the raw
Pass 1 gaps, `spacingPx` plus the per-stave offset of the lower stave. -/
theorem justify_forced_break_amended :
    ((paginateStaves tenStaveMeta 480 (List.replicate 10 0) [2]).map
        (fun pg => pg.staves.map (·.staveIndex)) =
      [[0, 1, 2], [3, 4, 5, 6], [7, 8, 9]] ∧
     (paginateStaves tenStaveMeta 480 (List.replicate 10 0) [2]).map
        (·.hasForcedBreak) = [true, false, false] ∧
     justifiedGapQ tenStaveMeta.staves 480 [2] tenStaveMeta.layout 0 [0, 1, 2] =
       1050) ∧
    ∀ (staves : List Stave) (spacing : Int) (offsets : List Int)
      (breaks : List Nat) (layout : Layout) (p : Nat) (indices : List Nat)
      (pre : List PlacedStave) (a b : PlacedStave) (post : List PlacedStave),
      (pass2Page staves spacing offsets breaks layout p indices).staves =
        pre ++ a :: b :: post →
      ((hasForcedOf breaks indices = true →
          b.yPosition = a.yPosition +
            ((a.scaled_height + a.markings_overhead_px : Int) : ℚ) +
            justifiedGapQ staves spacing breaks layout p indices) ∧
       (hasForcedOf breaks indices = false →
          b.yPosition = a.yPosition +
            ((a.scaled_height + a.markings_overhead_px : Int) : ℚ) +
            ((spacing + offsets.getD b.staveIndex 0 : Int) : ℚ)) ∧
       (hasForcedOf breaks indices = true → 0 < numGapsOf indices →
          (numGapsOf indices : Int) * spacing <
            remainingOf staves layout p indices →
          justifiedGapQ staves spacing breaks layout p indices =
            (remainingOf staves layout p indices : ℚ) /
              (numGapsOf indices : ℚ))) := by
  constructor
  · refine ⟨by decide, by decide, ?_⟩
    norm_num [justifiedGapQ, hasForcedOf, numGapsOf, remainingOf, startYOf,
      totalStaveHOf, staveAt, totalHOf, tenStaveMeta]
  · intro staves spacing offsets breaks layout p indices pre a b post heq
    simp only [pass2Page] at heq
    have hadj := placePage_adjacent staves p _ indices _ pre a b post heq
    refine ⟨fun hf => ?_, fun hf => ?_, fun hf h1 h2 => ?_⟩
    · rw [hadj, if_pos hf]
    · rw [hadj, if_neg (by rw [hf]; exact Bool.false_ne_true)]
    · rw [justifiedGapQ, if_pos ⟨hf, h1, h2⟩]

/-- Claim C3 witness: on a forced-break page holding the two staves 0 and 1
of a two-stave Part (3300px available), the theorem places stave 1 at the
justified position `0 + 400 + justifiedGap`. -/
theorem justify_forced_break_witness :
    (2900 : ℚ) = 0 + ((400 + 0 : Int) : ℚ) +
      justifiedGapQ [⟨400, 0⟩, ⟨400, 0⟩] 480 [1] ⟨0, 3300⟩ 0 [0, 1] := by
  have h := (justify_forced_break_amended).2 [⟨400, 0⟩, ⟨400, 0⟩] 480 []
    [1] ⟨0, 3300⟩ 0 [0, 1] [] ⟨0, 0, 0, 400, 0⟩ ⟨1, 0, 2900, 400, 0⟩ []
    (by norm_num [pass2Page, placePage, placeRest, justifiedGapQ, hasForcedOf,
      numGapsOf, remainingOf, startYOf, totalStaveHOf, staveAt, totalHOf])
  exact h.1 (by decide)

theorem take_takeWhile_length {α : Type} (l : List α) (p : α → Bool) :
    l.take (l.takeWhile p).length = l.takeWhile p := by
  induction l with
  | nil => rfl
  | cons a t ih =>
    rw [List.takeWhile_cons]
    by_cases h : p a = true
    · rw [if_pos h, List.length_cons, List.take_succ_cons, ih]
    · rw [if_neg h, List.length_nil, List.take_zero]

theorem drop_takeWhile_length {α : Type} (l : List α) (p : α → Bool) :
    l.drop (l.takeWhile p).length = l.dropWhile p := by
  induction l with
  | nil => rfl
  | cons a t ih =>
    rw [List.takeWhile_cons, List.dropWhile_cons]
    by_cases h : p a = true
    · rw [if_pos h, if_pos h, List.length_cons, List.drop_succ_cons, ih]
    · rw [if_neg h, if_neg h, List.length_nil, List.drop_zero]

theorem dropWhile_lt_of_sorted (y : ℚ) :
    ∀ (l : List ℚ), l.Pairwise (· < ·) → y ∉ l →
      ∀ b ∈ l.dropWhile (fun d => decide (d < y)), y < b := by
  intro l
  induction l with
  | nil => simp
  | cons a t ih =>
    intro hp hny b hb
    rw [List.dropWhile_cons] at hb
    by_cases hpa : a < y
    · rw [if_pos (by simpa using hpa)] at hb
      exact ih (List.Pairwise.of_cons hp) (fun h => hny (List.mem_cons_of_mem _ h)) b hb
    · rw [if_neg (by simpa using hpa)] at hb
      have hya : y < a := lt_of_le_of_ne (not_lt.mp hpa)
        (fun he => hny (he ▸ List.mem_cons_self a t))
      rcases List.mem_cons.mp hb with rfl | hbt
      · exact hya
      · exact hya.trans ((List.pairwise_cons.mp hp).1 b hbt)

/-- Claim C7 (counterexample): inserting a divider at a Y equal to an
existing divider (`addDividerAtY` inserts before the first divider that is
not `< y`) breaks strict monotonicity: inserting 300 into the strictly
increasing `[100, 300]` yields `[100, 300, 300]`. -/
theorem divider_ops_monotone_cex :
    List.Pairwise (· < ·) ([100, 300] : List ℚ) ∧
    insertDividerY [100, 300] 300 = [100, 300, 300] ∧
    ¬ List.Pairwise (· < ·) ([100, 300, 300] : List ℚ) := by
  refine ⟨?_, ?_, ?_⟩
  · norm_num [List.pairwise_cons]
  · norm_num [insertDividerY, insertIdx, splice, List.takeWhile]
  · intro h
    have := (List.pairwise_cons.mp (List.Pairwise.of_cons h)).1 300
      (List.mem_cons_self _ _)
    exact absurd this (by norm_num)

/-- Claim C7 (amended): removing a divider always preserves strictly
increasing Y-coordinates; inserting via `addDividerAtY` preserves them
provided the new Y differs from every existing divider; the constrained
drag preserves them provided its clamp interval is non-empty
(`minY ≤ maxY`, i.e. the dragged divider's neighbours — or the 12px page
margins — leave room). -/
theorem divider_ops_monotone_amended (divs : List ℚ)
    (hs : divs.Pairwise (· < ·)) :
    (∀ idx, (removeDivider divs idx).Pairwise (· < ·)) ∧
    (∀ y, y ∉ divs → (insertDividerY divs y).Pairwise (· < ·)) ∧
    (∀ (ph : ℚ) (idx : Nat) (newY : ℚ), idx < divs.length →
      dragMin divs idx ≤ dragMax divs ph idx →
      (dragDivider divs ph idx newY).Pairwise (· < ·)) := by
  refine ⟨fun idx => List.Pairwise.sublist (List.eraseIdx_sublist divs idx) hs,
    ?_, ?_⟩
  · intro y hy
    have hsplit :
        insertDividerY divs y =
          divs.takeWhile (fun d => decide (d < y)) ++
            y :: divs.dropWhile (fun d => decide (d < y)) := by
      rw [insertDividerY, splice, insertIdx, take_takeWhile_length,
        drop_takeWhile_length]
    have hdivs : divs.takeWhile (fun d => decide (d < y)) ++
        divs.dropWhile (fun d => decide (d < y)) = divs :=
      List.takeWhile_append_dropWhile _ _
    have hs2 : List.Pairwise (· < ·)
        (divs.takeWhile (fun d => decide (d < y)) ++
          divs.dropWhile (fun d => decide (d < y))) := by
      rw [hdivs]; exact hs
    have hparts := List.pairwise_append.mp hs2
    have htw : ∀ a ∈ divs.takeWhile (fun d => decide (d < y)), a < y := by
      intro a ha
      have h2 := @List.mem_takeWhile_imp ℚ (fun d => decide (d < y)) divs a ha
      simpa using h2
    have hdw : ∀ b ∈ divs.dropWhile (fun d => decide (d < y)), y < b :=
      dropWhile_lt_of_sorted y divs hs hy
    rw [hsplit, List.pairwise_append]
    refine ⟨hparts.1, List.pairwise_cons.mpr ⟨hdw, hparts.2.1⟩, ?_⟩
    intro a ha b hb
    rcases List.mem_cons.mp hb with rfl | hb'
    · exact htw a ha
    · exact hparts.2.2 a ha b hb'
  · intro ph idx newY hidx hfeas
    have hcmin : dragMin divs idx ≤
        max (dragMin divs idx) (min (dragMax divs ph idx) newY) :=
      le_max_left _ _
    have hcmax : max (dragMin divs idx) (min (dragMax divs ph idx) newY) ≤
        dragMax divs ph idx :=
      max_le hfeas (min_le_left _ _)
    rw [dragDivider, List.pairwise_iff_getElem]
    intro i j hi hj hij
    have hi2 : i < divs.length := by simpa using hi
    have hj2 : j < divs.length := by simpa using hj
    have hmono := List.pairwise_iff_getElem.mp hs
    rcases eq_or_ne i idx with rfl | hine
    · have hji : i ≠ j := by omega
      rw [List.getElem_set_self, List.getElem_set_ne hji]
      have hine1 : i ≠ divs.length - 1 := by omega
      have hmax : dragMax divs ph i = divs.getD (i + 1) 0 - 12 := by
        rw [dragMax, if_neg hine1]
      have hi1 : i + 1 < divs.length := by omega
      rw [List.getD_eq_getElem _ _ hi1] at hmax
      have hle : divs[i + 1] ≤ divs[j] := by
        rcases eq_or_lt_of_le (by omega : i + 1 ≤ j) with he | hlt
        · exact le_of_eq (by congr 1)
        · exact le_of_lt (hmono (i + 1) j hi1 hj2 hlt)
      calc max (dragMin divs i) (min (dragMax divs ph i) newY) ≤
          dragMax divs ph i := hcmax
        _ = divs[i + 1] - 12 := hmax
        _ < divs[i + 1] := by norm_num
        _ ≤ divs[j] := hle
    · rcases eq_or_ne j idx with rfl | hjne
      · have hij' : j ≠ i := by omega
        rw [List.getElem_set_self, List.getElem_set_ne hij']
        have hj0 : j ≠ 0 := by omega
        have hmin : dragMin divs j = divs.getD (j - 1) 0 + 12 := by
          rw [dragMin, if_neg hj0]
        have hj1 : j - 1 < divs.length := by omega
        rw [List.getD_eq_getElem _ _ hj1] at hmin
        have hle : divs[i] ≤ divs[j - 1] := by
          rcases eq_or_lt_of_le (by omega : i ≤ j - 1) with he | hlt
          · exact le_of_eq (by congr 1)
          · exact le_of_lt (hmono i (j - 1) hi2 hj1 hlt)
        calc divs[i] ≤ divs[j - 1] := hle
          _ < divs[j - 1] + 12 := by norm_num
          _ = dragMin divs j := hmin.symm
          _ ≤ max (dragMin divs j) (min (dragMax divs ph j) newY) := hcmin
      · rw [List.getElem_set_ne (Ne.symm hine), List.getElem_set_ne (Ne.symm hjne)]
        exact hmono i j hi2 hj2 hij

/-- Claim C7 witness: on the strictly increasing divider list
`[10, 100, 200]` (page height 1000), removal at 0, insertion at 15 and a
drag of divider 1 all yield strictly increasing lists. -/
theorem divider_ops_monotone_witness :
    (removeDivider [10, 100, 200] 0).Pairwise (· < ·) ∧
    (insertDividerY [10, 100, 200] 15).Pairwise (· < ·) ∧
    (dragDivider [10, 100, 200] 1000 1 130).Pairwise (· < ·) := by
  have hs : List.Pairwise (· < ·) ([10, 100, 200] : List ℚ) := by
    norm_num [List.pairwise_cons]
  have h := divider_ops_monotone_amended [10, 100, 200] hs
  exact ⟨h.1 0, h.2.1 15 (by norm_num), h.2.2 1000 1 130 (by norm_num)
    (by norm_num [dragMin, dragMax])⟩

theorem jsRound_le (q : ℚ) : (jsRound q : ℚ) ≤ q + 1 / 2 :=
  Int.floor_le _

theorem lt_jsRound (q : ℚ) : q - 1 / 2 < (jsRound q : ℚ) := by
  have h := Int.sub_one_lt_floor (q + 1 / 2)
  rw [jsRound]
  linarith

/-- Claim C8 (counterexample): with display width D = 520 and backend width
W = 2480 (the real A4@300DPI regime), Y = 31 scales to round(31·520/2480) =
round(6.5) = 7 and back to round(7·2480/520) = round(33.38…) = 33 — the
round trip moves the coordinate by 2 pixels, not at most 1. -/
theorem roundtrip_scaling_cex :
    roundTrip 31 520 2480 = 33 ∧ ¬((roundTrip 31 520 2480 - 31).natAbs ≤ 1) := by
  have h : roundTrip 31 520 2480 = 33 := by
    norm_num [roundTrip, scaleRound, jsRound]
  exact ⟨h, by rw [h]; decide⟩

/-- Claim C8 (amended): for every integer Y and positive widths D, W, the
round trip `round(round(y·D/W)·W/D)` differs from `y` by at most
`W/(2D) + 1/2`; in particular the claimed 1-pixel bound holds whenever
`W < 3D` (when the display is more than a third of the backend width).
For `W ≥ 3D` the 1-pixel bound is no longer guaranteed — the
counterexample D = 520, W = 2480 exceeds it by 1 pixel. -/
theorem roundtrip_scaling_amended (y D W : ℤ) (hD : 0 < D) (hW : 0 < W) :
    ((|roundTrip y D W - y| : ℤ) : ℚ) ≤ (W : ℚ) / (2 * D) + 1 / 2 ∧
    (W < 3 * D → |roundTrip y D W - y| ≤ 1) := by
  have hs : (0 : ℚ) < (D : ℚ) := by exact_mod_cast hD
  have hw : (0 : ℚ) < (W : ℚ) := by exact_mod_cast hW
  have hws : (0 : ℚ) < (W : ℚ) / (D : ℚ) := div_pos hw hs
  have hsne : (D : ℚ) ≠ 0 := ne_of_gt hs
  have hwne : (W : ℚ) ≠ 0 := ne_of_gt hw
  set q1 : ℚ := (y : ℚ) * ((D : ℚ) / (W : ℚ)) with hq1
  set b : ℤ := jsRound q1 with hb
  set q2 : ℚ := (b : ℚ) * ((W : ℚ) / (D : ℚ)) with hq2
  have hrt : roundTrip y D W = jsRound q2 := rfl
  have h1 : (b : ℚ) ≤ q1 + 1 / 2 := jsRound_le q1
  have h2 : q1 - 1 / 2 < (b : ℚ) := lt_jsRound q1
  have g1 : (jsRound q2 : ℚ) ≤ q2 + 1 / 2 := jsRound_le q2
  have g2 : q2 - 1 / 2 < (jsRound q2 : ℚ) := lt_jsRound q2
  have e2 : q2 ≤ (q1 + 1 / 2) * ((W : ℚ) / (D : ℚ)) := by
    rw [hq2]
    exact mul_le_mul_of_nonneg_right h1 (le_of_lt hws)
  have e3 : (q1 + 1 / 2) * ((W : ℚ) / (D : ℚ)) =
      (y : ℚ) + (W : ℚ) / (2 * (D : ℚ)) := by
    rw [hq1]
    field_simp
    ring
  have f2 : (q1 - 1 / 2) * ((W : ℚ) / (D : ℚ)) < q2 := by
    rw [hq2]
    exact mul_lt_mul_of_pos_right h2 hws
  have f3 : (q1 - 1 / 2) * ((W : ℚ) / (D : ℚ)) =
      (y : ℚ) - (W : ℚ) / (2 * (D : ℚ)) := by
    rw [hq1]
    field_simp
    ring
  have hupper : (jsRound q2 : ℚ) ≤ (y : ℚ) + (W : ℚ) / (2 * (D : ℚ)) + 1 / 2 := by
    linarith
  have hlower : (y : ℚ) - (W : ℚ) / (2 * (D : ℚ)) - 1 / 2 < (jsRound q2 : ℚ) := by
    linarith
  have hA : ((|roundTrip y D W - y| : ℤ) : ℚ) ≤ (W : ℚ) / (2 * D) + 1 / 2 := by
    rw [hrt, Int.cast_abs, Int.cast_sub, abs_le]
    constructor <;> linarith
  refine ⟨hA, fun h3 => ?_⟩
  have h3q : (W : ℚ) < 3 * (D : ℚ) := by exact_mod_cast h3
  have hb2 : (W : ℚ) / (2 * (D : ℚ)) + 1 / 2 < 2 := by
    rw [div_add' _ _ _ (by positivity), div_lt_iff (by positivity)]
    linarith
  have hq : ((|roundTrip y D W - y| : ℤ) : ℚ) < 2 := lt_of_le_of_lt hA hb2
  have hz : |roundTrip y D W - y| < 2 := by exact_mod_cast hq
  omega

/-- Claim C8 witness: with equal display and backend widths (5, 5) the
round trip of 7 stays within the bound, and within 1 pixel. -/
theorem roundtrip_scaling_witness :
    ((|roundTrip 7 5 5 - 7| : ℤ) : ℚ) ≤ ((5 : ℤ) : ℚ) / (2 * ((5 : ℤ) : ℚ)) + 1 / 2 ∧
    |roundTrip 7 5 5 - 7| ≤ 1 := by
  have h := roundtrip_scaling_amended 7 5 5 (by decide) (by decide)
  exact ⟨h.1, h.2 (by decide)⟩

theorem exportNamesGo_length (flags : List Bool) (names : List String) :
    ∀ (k j r : Nat), (exportNamesGo flags names k j r).length = k := by
  intro k
  induction k with
  | zero => intro j r; rfl
  | succ k ih =>
    intro j r
    rw [exportNamesGo]
    split_ifs <;> simp [ih]

/-- Claim C6 (code bug): the emitted `strip_names` array always has length
`dividers − 1` (last conjunct, for every page), but the parallel-array
invariant `len(system_flags) = len(dividers)` breaks on the very first
insertion: starting from the consistent state dividers `[100, 300]`, flags
`[false, false]`, one `addDividerAtY(200, false)` yields 3 dividers and 4
flags, because the flag is spliced twice — once by the
`setSystemDividersByPage` updater nested inside the `setDividersByPage`
updater (part_010 lines 523-527) and once by the top-level
`setSystemDividersByPage` updater (lines 531-541).  `handleExport` then
emits that 4-flag array verbatim for a 3-divider page. -/
theorem export_flags_length_bug :
    addDividerAtY ⟨[100, 300], [false, false]⟩ 200 false =
      ⟨[100, 200, 300], [false, false, false, false]⟩ ∧
    (addDividerAtY ⟨[100, 300], [false, false]⟩ 200 false).flags.length = 4 ∧
    (addDividerAtY ⟨[100, 300], [false, false]⟩ 200 false).divs.length = 3 ∧
    (exportStripNames
        (addDividerAtY ⟨[100, 300], [false, false]⟩ 200 false).divs
        (addDividerAtY ⟨[100, 300], [false, false]⟩ 200 false).flags
        []).length = 2 ∧
    ∀ (divs : List ℚ) (flags : List Bool) (names : List String),
      (exportStripNames divs flags names).length = divs.length - 1 := by
  have h : addDividerAtY ⟨[100, 300], [false, false]⟩ 200 false =
      ⟨[100, 200, 300], [false, false, false, false]⟩ := by
    norm_num [addDividerAtY, insertIdx, splice, List.takeWhile]
  refine ⟨h, by rw [h]; rfl, by rw [h]; rfl, by rw [h]; decide,
    fun divs flags names => exportNamesGo_length flags names _ 0 0⟩

end Divisi
